import Mathlib

/-!
Verification development for the concurrent range-based HTTP file downloader
(`src/aaa.go`).

Shallow-embedding conventions:

* Go `int` / `int64` values are modelled as `Int`.  On every path the claims
  quantify over, the values computed stay far below `2^63`, so 64-bit
  wrap-around never occurs and unbounded integers are faithful.
* Go integer division truncates toward zero, which is `Int.tdiv`.
* The filesystem is a map from file names to file contents
  (`FS := String → Option Bytes`, a byte being a `Nat`).
* HTTP is modelled by an environment supplying the outcome of the single
  `http.Head` probe and the outcome of each ranged `GET`.
* The fetch goroutines write to pairwise distinct scratch files and share no
  mutable state (a chunk error is only logged), so the fan-out / full-barrier
  join of `Download` is modelled as a deterministic left-to-right pass over
  the planned ranges; any interleaving produces the same filesystem.
* `calculateRanges` divides by `d.concurrency` with no guard; a zero divisor
  panics in Go, modelled by an `Option` result (`none` = panic).
-/

/-- Byte strings are lists of byte values. -/
abbrev Bytes := List Nat

/-- The filesystem: a map from file name to contents (`none` = absent). -/
abbrev FS := String → Option Bytes

/-- Write (or delete, with `none`) a file. -/
def fsSet (fs : FS) (name : String) (v : Option Bytes) : FS :=
  fun n => if n = name then v else fs n

/-- The `Downloader` struct of `aaa.go`. -/
structure Downloader where
  url : String
  output : String
  concurrency : Int
  size : Int
  ranges : List (Int × Int)
deriving DecidableEq

/-- Model of `NewDownloader`: the remaining fields start at their Go zero values. -/
def NewDownloader (url output : String) (concurrency : Int) : Downloader :=
  { url := url, output := output, concurrency := concurrency,
    size := 0, ranges := [] }

/-! ### Decimal scratch-file names (`strconv.Itoa`) -/

/-- Little-endian decimal digits of `n`, with `fuel` bounding the recursion
(`fuel ≥ n` suffices); `[]` for `n = 0`. -/
def decDigitsAux : Nat → Nat → List Nat
  | 0, _ => []
  | fuel + 1, n => if n = 0 then [] else n % 10 :: decDigitsAux fuel (n / 10)

/-- Little-endian decimal digits of `n`; `[0]` for `0`. -/
def decDigits (n : Nat) : List Nat :=
  if n = 0 then [0] else decDigitsAux n n

/-- Model of `strconv.Itoa` on a non-negative loop index: the usual decimal
rendering (`itoa 0 = "0"`, `itoa 123 = "123"`). -/
def itoa (n : Nat) : String :=
  ⟨((decDigits n).map Nat.digitChar).reverse⟩

/-! ### The capability probe (`checkSupportRange`) -/

/-- An error from the HTTP transport (`http.Head` returning `err ≠ nil`). -/
structure TransportError where
  msg : String
deriving DecidableEq

/-- The parts of an `http.Head` response that `checkSupportRange` inspects. -/
structure HeadResponse where
  /-- The `resp.StatusCode` field. -/
  statusCode : Nat
  /-- Value of `resp.Header.Get "Accept-Ranges")` (`""` when absent). -/
  acceptRanges : String
  /-- The `resp.ContentLength` field; `-1` when the server declares no content length
  (the Go `net/http` convention for an unknown length). -/
  contentLength : Int
deriving DecidableEq

/-- What the probe can fail with: the transport error itself, or the
`server does not support range requests` error. -/
inductive ProbeError
  | transport (e : TransportError)
  | unsupported
deriving DecidableEq

/-- Model of `(d *Downloader) checkSupportRange`: succeeds exactly when the
status is `200 OK` and the `Accept-Ranges` header equals `"bytes"`, recording
`resp.ContentLength` as the size; otherwise the transport error or the
unsupported error. -/
def checkSupportRange (d : Downloader) (resp : Except TransportError HeadResponse) :
    Except ProbeError Downloader :=
  match resp with
  | .error e => .error (.transport e)
  | .ok r =>
    if r.statusCode = 200 ∧ r.acceptRanges = "bytes" then
      .ok { d with size := r.contentLength }
    else
      .error .unsupported

/-! ### The range planner (`calculateRanges`) -/

/-- The range appended for loop index `i`: `start = i*chunkSize`,
`end = start+chunkSize-1`, except the last index whose end is `size-1`. -/
def planRange (size chunkSize conc : Int) (i : Nat) : Int × Int :=
  let start := (i : Int) * chunkSize
  if (i : Int) = conc - 1 then (start, size - 1) else (start, start + chunkSize - 1)

/-- The list of ranges the loop of `calculateRanges` appends, with
`chunkSize = size / conc` in the truncating Go `int64` division. -/
def plannedRanges (size conc : Int) : List (Int × Int) :=
  (List.range conc.toNat).map (planRange size (Int.tdiv size conc) conc)

/-- Model of `(d *Downloader) calculateRanges`: appends the planned ranges to
`d.ranges` (the loop body runs `max conc 0` times).  `none` models the Go
runtime panic of `d.size / int64(d.concurrency)` when the divisor is `0`. -/
def calculateRanges (d : Downloader) : Option Downloader :=
  if d.concurrency = 0 then none
  else some { d with ranges := d.ranges ++ plannedRanges d.size d.concurrency }

/-! ### Chunk fetches (`downloadChunk`, one goroutine per range) -/

/-- Outcome of one ranged `GET`: a successful body, or a failure that left
behind either no scratch file (request error before `os.Create`) or a
half-copied one (error during `io.Copy`). -/
inductive ChunkResult
  | ok (bytes : Bytes)
  | err (written : Option Bytes)

/-- The network environment of one run: the probe response and the outcome of
the ranged `GET` issued by goroutine `i` for range `r`. -/
structure Env where
  headResp : Except TransportError HeadResponse
  fetch : Nat → Int × Int → ChunkResult

/-- Effect of the goroutines for ranges numbered `i, i+1, ...`: each writes its
outcome to scratch file `itoa` of its index and reports its error only to the
log.  The goroutines touch pairwise distinct files and no shared state, so the
parallel fan-out is modelled by this left-to-right pass. -/
def runFetchesFrom (env : Env) : Nat → List (Int × Int) → FS → FS
  | _, [], fs => fs
  | i, r :: rest, fs =>
    let fs1 :=
      match env.fetch i r with
      | .ok bs => fsSet fs (itoa i) (some bs)
      | .err (some w) => fsSet fs (itoa i) (some w)
      | .err none => fs
    runFetchesFrom env (i + 1) rest fs1

/-- The whole fetch phase of `Download` (`for i, r := range d.ranges`). -/
def runFetches (env : Env) (ranges : List (Int × Int)) (fs : FS) : FS :=
  runFetchesFrom env 0 ranges fs

/-! ### The merger (`mergeFiles`) -/

/-- A merge failure: `os.Open(strconv.Itoa(i))` failed because piece `i` is
absent. -/
inductive MergeError
  | openErr (i : Nat)
deriving DecidableEq

/-- The loop of `mergeFiles` over the remaining indices: open piece `i`
(failing the merge right there when it is absent), append its contents to the
output file, delete it, continue. -/
def mergeLoop (out : String) : List Nat → FS → Except MergeError Unit × FS
  | [], fs => (.ok (), fs)
  | i :: rest, fs =>
    match fs (itoa i) with
    | none => (.error (.openErr i), fs)
    | some bs =>
      mergeLoop out rest (fsSet (fsSet fs out (some ((fs out).getD [] ++ bs))) (itoa i) none)

/-- Model of `(d *Downloader) mergeFiles`: `os.Create` truncates the output
file, then the loop runs over indices `0 .. conc-1`. -/
def mergeFiles (conc : Int) (out : String) (fs : FS) : Except MergeError Unit × FS :=
  mergeLoop out (List.range conc.toNat) (fsSet fs out (some []))

/-! ### The coordinator (`Download`) -/

/-- The errors `Download` can return: exactly a probe error or a merge
error. -/
inductive DownloadError
  | probe (e : ProbeError)
  | merge (e : MergeError)
deriving DecidableEq

/-- Model of `(d *Downloader) Download`: probe, plan, fetch every range (the
full-barrier `wg.Wait`), then merge unconditionally.  `none` models the panic
of the unguarded division in `calculateRanges` when `d.concurrency = 0`. -/
def Download (d : Downloader) (env : Env) (fs : FS) :
    Option (Except DownloadError Unit × FS) :=
  match checkSupportRange d env.headResp with
  | .error e => some (.error (.probe e), fs)
  | .ok d1 =>
    match calculateRanges d1 with
    | none => none
    | some d2 =>
      let fs1 := runFetches env d2.ranges fs
      match mergeFiles d2.concurrency d2.output fs1 with
      | (.ok _, fs2) => some (.ok (), fs2)
      | (.error e, fs2) => some (.error (.merge e), fs2)

/-- The argument validation in `main`: it rejects an empty url or output and
never inspects the concurrency flag. -/
def mainArgsAccepted (url output : String) (_concurrency : Int) : Bool :=
  !(url == "" || output == "")

/-- Concatenation, in order, of the scratch pieces named by the indices. -/
def piecesConcat (fs : FS) (l : List Nat) : Bytes :=
  (l.map (fun i => (fs (itoa i)).getD [])).flatten

/-- The scratch-file contents left behind by one chunk outcome (`old` is the
previous contents: an outcome that failed before `os.Create` leaves them). -/
def chunkFile (res : ChunkResult) (old : Option Bytes) : Option Bytes :=
  match res with
  | .ok bs => some bs
  | .err (some w) => some w
  | .err none => old

/-- The bytes that the fetch of index `i` left for the merge (its body on
success, the half-copied bytes on a write failure, nothing otherwise). -/
def fetchedBytes (env : Env) (ranges : List (Int × Int)) (i : Nat) : Bytes :=
  match env.fetch i (ranges.getD i (0, 0)) with
  | .ok bs => bs
  | .err w => w.getD []

/-! ### Theorems -/

theorem decDigitsAux_ofDigits :
    ∀ fuel n, n ≤ fuel → Nat.ofDigits 10 (decDigitsAux fuel n) = n := by
  intro fuel
  induction fuel with
  | zero =>
    intro n hn
    interval_cases n
    simp [decDigitsAux, Nat.ofDigits_nil]
  | succ fuel ih =>
    intro n hn
    by_cases h0 : n = 0
    · simp [decDigitsAux, h0, Nat.ofDigits_nil]
    · have hdiv : n / 10 ≤ fuel := by
        have : n / 10 < n := Nat.div_lt_self (Nat.pos_of_ne_zero h0) (by norm_num)
        omega
      simp only [decDigitsAux, h0, if_false, Nat.ofDigits_cons, ih _ hdiv]
      omega

theorem decDigits_ofDigits (n : Nat) : Nat.ofDigits 10 (decDigits n) = n := by
  by_cases h0 : n = 0
  · simp [decDigits, h0, Nat.ofDigits]
  · simp only [decDigits, h0, if_false]
    exact decDigitsAux_ofDigits n n le_rfl

theorem decDigitsAux_lt10 :
    ∀ fuel n, ∀ d ∈ decDigitsAux fuel n, d < 10 := by
  intro fuel
  induction fuel with
  | zero => intro n d hd; simp [decDigitsAux] at hd
  | succ fuel ih =>
    intro n d hd
    by_cases h0 : n = 0
    · simp [decDigitsAux, h0] at hd
    · simp only [decDigitsAux, h0, if_false, List.mem_cons] at hd
      rcases hd with h | h
      · omega
      · exact ih _ _ h

theorem decDigits_lt10 (n : Nat) : ∀ d ∈ decDigits n, d < 10 := by
  intro d hd
  by_cases h0 : n = 0
  · simp [decDigits, h0] at hd
    omega
  · simp only [decDigits, h0, if_false] at hd
    exact decDigitsAux_lt10 n n d hd

theorem digitChar_inj_lt10 :
    ∀ a < 10, ∀ b < 10, Nat.digitChar a = Nat.digitChar b → a = b := by decide

theorem map_digitChar_inj :
    ∀ l₁ l₂ : List Nat, (∀ d ∈ l₁, d < 10) → (∀ d ∈ l₂, d < 10) →
      l₁.map Nat.digitChar = l₂.map Nat.digitChar → l₁ = l₂ := by
  intro l₁
  induction l₁ with
  | nil =>
    intro l₂ _ _ h
    cases l₂ with
    | nil => rfl
    | cons b t => simp at h
  | cons a t ih =>
    intro l₂ h₁ h₂ h
    cases l₂ with
    | nil => simp at h
    | cons b t₂ =>
      simp only [List.map_cons, List.cons.injEq] at h
      have ha : a < 10 := h₁ a (by simp)
      have hb : b < 10 := h₂ b (by simp)
      have hab : a = b := digitChar_inj_lt10 a ha b hb h.1
      have ht : t = t₂ :=
        ih t₂ (fun d hd => h₁ d (by simp [hd])) (fun d hd => h₂ d (by simp [hd])) h.2
      rw [hab, ht]

theorem itoa_inj : ∀ {m n : Nat}, itoa m = itoa n → m = n := by
  intro m n h
  have hdata : ((decDigits m).map Nat.digitChar).reverse
      = ((decDigits n).map Nat.digitChar).reverse := congrArg String.data h
  have hmap : (decDigits m).map Nat.digitChar = (decDigits n).map Nat.digitChar :=
    List.reverse_injective hdata
  have hdig : decDigits m = decDigits n :=
    map_digitChar_inj _ _ (decDigits_lt10 m) (decDigits_lt10 n) hmap
  have := congrArg (Nat.ofDigits 10) hdig
  rwa [decDigits_ofDigits, decDigits_ofDigits] at this

theorem itoa_ne {m n : Nat} (h : m ≠ n) : itoa m ≠ itoa n :=
  fun he => h (itoa_inj he)

/-! ### Facts about the planner -/

theorem length_plannedRanges (t w : Int) :
    (plannedRanges t w).length = w.toNat := by
  simp [plannedRanges]

theorem get_plannedRanges (t w : Int) (i : Nat) (h : i < (plannedRanges t w).length) :
    (plannedRanges t w).get ⟨i, h⟩ = planRange t (Int.tdiv t w) w i := by
  simp [plannedRanges]

theorem mem_plannedRanges {t w : Int} {r : Int × Int} :
    r ∈ plannedRanges t w ↔
      ∃ i, i < w.toNat ∧ planRange t (Int.tdiv t w) w i = r := by
  simp [plannedRanges, List.mem_map, List.mem_range]

theorem planRange_fst (t cs w : Int) (i : Nat) :
    (planRange t cs w i).1 = (i : Int) * cs := by
  by_cases h : (i : Int) = w - 1 <;> simp [planRange, h]

theorem planRange_snd_last (t cs w : Int) (i : Nat) (h : (i : Int) = w - 1) :
    (planRange t cs w i).2 = t - 1 := by
  simp [planRange, h]

theorem planRange_snd_mid (t cs w : Int) (i : Nat) (h : (i : Int) ≠ w - 1) :
    (planRange t cs w i).2 = (i : Int) * cs + cs - 1 := by
  simp [planRange, h]

theorem tdiv_eq_ediv_of_nonneg (t w : Int) (hw : 0 < w) (ht : 0 ≤ t) :
    Int.tdiv t w = t / w :=
  Int.tdiv_eq_ediv ht hw.le

theorem chunk_one_le (t w : Int) (hw : 0 < w) (htw : w ≤ t) :
    1 ≤ Int.tdiv t w := by
  rw [tdiv_eq_ediv_of_nonneg t w hw (le_trans hw.le htw)]
  rw [Int.le_ediv_iff_mul_le hw]
  linarith

theorem chunk_mul_le (t w : Int) (hw : 0 < w) (ht : 0 ≤ t) :
    w * Int.tdiv t w ≤ t := by
  rw [tdiv_eq_ediv_of_nonneg t w hw ht]
  have h1 := Int.ediv_add_emod t w
  have h2 := Int.emod_nonneg t (show w ≠ 0 by omega)
  linarith

theorem plannedRanges_elem_bounds (t w : Int) (hw : 0 < w) (htw : w ≤ t) :
    ∀ r ∈ plannedRanges t w, 0 ≤ r.1 ∧ r.1 ≤ r.2 ∧ r.2 ≤ t - 1 := by
  intro r hr
  rw [mem_plannedRanges] at hr
  obtain ⟨i, hi, rfl⟩ := hr
  have h1 : 1 ≤ Int.tdiv t w := chunk_one_le t w hw htw
  have h2 : w * Int.tdiv t w ≤ t := chunk_mul_le t w hw (by omega)
  have hi0 : (0 : Int) ≤ (i : Int) := Int.natCast_nonneg i
  have hiw : (i : Int) < w := by omega
  have hstart : 0 ≤ (i : Int) * Int.tdiv t w :=
    mul_nonneg hi0 (by linarith)
  rw [planRange_fst]
  by_cases hlast : (i : Int) = w - 1
  · rw [planRange_snd_last t _ w i hlast]
    refine ⟨hstart, ?_, le_refl _⟩
    have hmul : (i : Int) * Int.tdiv t w + Int.tdiv t w = w * Int.tdiv t w := by
      rw [hlast]; ring
    linarith
  · rw [planRange_snd_mid t _ w i hlast]
    refine ⟨hstart, by linarith, ?_⟩
    have hsucc : (i : Int) + 1 ≤ w := by omega
    have hmul : ((i : Int) + 1) * Int.tdiv t w ≤ w * Int.tdiv t w :=
      mul_le_mul_of_nonneg_right hsucc (by linarith)
    have hring : ((i : Int) + 1) * Int.tdiv t w
        = (i : Int) * Int.tdiv t w + Int.tdiv t w := by ring
    linarith

theorem plannedRanges_cover (t w : Int) (hw : 0 < w) (htw : w ≤ t) :
    ∀ x : Int, 0 ≤ x → x ≤ t - 1 →
      ∃ r ∈ plannedRanges t w, r.1 ≤ x ∧ x ≤ r.2 := by
  intro x hx0 hxt
  have h1 : 1 ≤ Int.tdiv t w := chunk_one_le t w hw htw
  have hq := Int.ediv_add_emod x (Int.tdiv t w)
  have hm0 : 0 ≤ x % Int.tdiv t w := Int.emod_nonneg x (by omega)
  have hm1 : x % Int.tdiv t w < Int.tdiv t w := Int.emod_lt_of_pos x (by omega)
  have hq0 : 0 ≤ x / Int.tdiv t w := Int.ediv_nonneg hx0 (by omega)
  by_cases hcase : x / Int.tdiv t w ≤ w - 2
  · refine ⟨planRange t (Int.tdiv t w) w (x / Int.tdiv t w).toNat, ?_, ?_, ?_⟩
    · rw [mem_plannedRanges]
      exact ⟨(x / Int.tdiv t w).toNat, by omega, rfl⟩
    · have hnl : (((x / Int.tdiv t w).toNat : Nat) : Int) ≠ w - 1 := by omega
      rw [planRange_fst]
      have hcast : (((x / Int.tdiv t w).toNat : Nat) : Int) = x / Int.tdiv t w :=
        Int.toNat_of_nonneg hq0
      rw [hcast]
      have hcomm : x / Int.tdiv t w * Int.tdiv t w
          = Int.tdiv t w * (x / Int.tdiv t w) := mul_comm _ _
      linarith
    · have hnl : (((x / Int.tdiv t w).toNat : Nat) : Int) ≠ w - 1 := by omega
      rw [planRange_snd_mid t _ w _ hnl]
      have hcast : (((x / Int.tdiv t w).toNat : Nat) : Int) = x / Int.tdiv t w :=
        Int.toNat_of_nonneg hq0
      rw [hcast]
      have hcomm : x / Int.tdiv t w * Int.tdiv t w
          = Int.tdiv t w * (x / Int.tdiv t w) := mul_comm _ _
      linarith
  · refine ⟨planRange t (Int.tdiv t w) w (w.toNat - 1), ?_, ?_, ?_⟩
    · rw [mem_plannedRanges]
      exact ⟨w.toNat - 1, by omega, rfl⟩
    · have hlast : ((w.toNat - 1 : Nat) : Int) = w - 1 := by omega
      rw [planRange_fst, hlast]
      have h3 : Int.tdiv t w * (w - 1) ≤ Int.tdiv t w * (x / Int.tdiv t w) :=
        mul_le_mul_of_nonneg_left (by omega) (by linarith)
      have hcomm : (w - 1) * Int.tdiv t w
          = Int.tdiv t w * (w - 1) := mul_comm _ _
      linarith
    · have hlast : ((w.toNat - 1 : Nat) : Int) = w - 1 := by omega
      rw [planRange_snd_last t _ w _ hlast]
      linarith

/-- C1: for `totalSize ≥ workerCount > 0` the planner returns exactly
`workerCount` ranges with `chunkSize = totalSize / workerCount` (truncating
division), range `i` being `[i*chunkSize, i*chunkSize + chunkSize - 1]` for
`i < workerCount - 1` and the last range ending at `totalSize - 1`; the ranges
are ascending, contiguous, non-overlapping, and their union is exactly
`[0, totalSize - 1]`; concretely `plan(100, 4)` yields
`[0,24],[25,49],[50,74],[75,99]`. -/
theorem calculateRanges_partition (t w : Int) (hw : 0 < w) (htw : w ≤ t) :
    (∀ d : Downloader, d.size = t → d.concurrency = w → d.ranges = [] →
        calculateRanges d = some { d with ranges := plannedRanges t w }) ∧
    ((plannedRanges t w).length = w.toNat ∧ (w.toNat : Int) = w) ∧
    Int.tdiv t w = t / w ∧
    (∀ (i : Nat) (h : i < (plannedRanges t w).length), (i : Int) < w - 1 →
        (plannedRanges t w).get ⟨i, h⟩ =
          ((i : Int) * (t / w), (i : Int) * (t / w) + t / w - 1)) ∧
    (∀ h : w.toNat - 1 < (plannedRanges t w).length,
        (plannedRanges t w).get ⟨w.toNat - 1, h⟩ = ((w - 1) * (t / w), t - 1)) ∧
    (∀ (i j : Nat) (hi : i < (plannedRanges t w).length)
        (hj : j < (plannedRanges t w).length), i < j →
        ((plannedRanges t w).get ⟨i, hi⟩).1 < ((plannedRanges t w).get ⟨j, hj⟩).1 ∧
        ((plannedRanges t w).get ⟨i, hi⟩).2 < ((plannedRanges t w).get ⟨j, hj⟩).1) ∧
    (∀ (i : Nat) (h : i + 1 < (plannedRanges t w).length)
        (h' : i < (plannedRanges t w).length),
        ((plannedRanges t w).get ⟨i + 1, h⟩).1 =
          ((plannedRanges t w).get ⟨i, h'⟩).2 + 1) ∧
    (∀ x : Int, (∃ r ∈ plannedRanges t w, r.1 ≤ x ∧ x ≤ r.2) ↔ 0 ≤ x ∧ x ≤ t - 1) ∧
    plannedRanges 100 4 = [(0, 24), (25, 49), (50, 74), (75, 99)] := by
  have ht0 : (0 : Int) ≤ t := by omega
  have h1 : 1 ≤ Int.tdiv t w := chunk_one_le t w hw htw
  have hde : Int.tdiv t w = t / w := tdiv_eq_ediv_of_nonneg t w hw ht0
  refine ⟨?_, ⟨length_plannedRanges t w, by omega⟩, hde, ?_, ?_, ?_, ?_, ?_, by decide⟩
  · intro d h1 h2 h3
    simp [calculateRanges, h1, h2, h3, (show w ≠ 0 by omega)]
  · intro i h hlt
    have hnl : (i : Int) ≠ w - 1 := by omega
    rw [get_plannedRanges, hde]
    simp [planRange, hnl]
  · intro h
    have hlast : ((w.toNat - 1 : Nat) : Int) = w - 1 := by omega
    rw [get_plannedRanges, hde]
    simp [planRange, hlast]
  · intro i j hi hj hij
    rw [length_plannedRanges] at hi hj
    have hnl : (i : Int) ≠ w - 1 := by omega
    have hij' : (i : Int) + 1 ≤ (j : Int) := by omega
    rw [get_plannedRanges, get_plannedRanges, planRange_fst,
      planRange_fst, planRange_snd_mid t _ w i hnl]
    have hmono : ((i : Int) + 1) * Int.tdiv t w ≤ (j : Int) * Int.tdiv t w :=
      mul_le_mul_of_nonneg_right hij' (by linarith)
    have hring : ((i : Int) + 1) * Int.tdiv t w
        = (i : Int) * Int.tdiv t w + Int.tdiv t w := by ring
    constructor <;> linarith
  · intro i h h'
    rw [length_plannedRanges] at h
    have hnl : (i : Int) ≠ w - 1 := by omega
    rw [get_plannedRanges, get_plannedRanges, planRange_fst,
      planRange_snd_mid t _ w i hnl]
    push_cast
    ring
  · intro x
    constructor
    · rintro ⟨r, hr, hx1, hx2⟩
      have hb := plannedRanges_elem_bounds t w hw htw r hr
      omega
    · rintro ⟨hx1, hx2⟩
      exact plannedRanges_cover t w hw htw x hx1 hx2

/-- Witness for C1 at `totalSize = 100`, `workerCount = 4`. -/
theorem calculateRanges_partition_witness :
    plannedRanges 100 4 = [(0, 24), (25, 49), (50, 74), (75, 99)] :=
  (calculateRanges_partition 100 4 (by norm_num) (by norm_num)).2.2.2.2.2.2.2.2

/-- C2 counterexample: at `totalSize = 5`, `workerCount = 10` (so
`totalSize ≥ 0` and `workerCount > 0`) the FIRST planner range — not the
last — is the degenerate `(0, -1)` with `end < start`, refuting the claim
that only the last range may be degenerate while all earlier ranges satisfy
`end ≥ start`; here the LAST range `(0, 4)` is the one that is fine. -/
theorem planner_degenerate_counterexample :
    (plannedRanges 5 10).length = 10 ∧
    (plannedRanges 5 10).getD 0 (0, 0) = (0, -1) ∧
    ((plannedRanges 5 10).getD 0 (0, 0)).2 < ((plannedRanges 5 10).getD 0 (0, 0)).1 ∧
    (plannedRanges 5 10).getD 9 (0, 0) = (0, 4) := by decide

/-- C2 amended: for `totalSize ≥ workerCount > 0` every planned range
satisfies `end ≥ start`; for `0 ≤ totalSize < workerCount` it is the other
way round: every range except the LAST equals the degenerate `(0, -1)`
(so `end < start` there), while the last range is `(0, totalSize - 1)`,
which satisfies `end ≥ start` iff `totalSize ≥ 1`. -/
theorem planner_degenerate_amended (t w : Int) (hw : 0 < w) (ht : 0 ≤ t) :
    (w ≤ t → ∀ r ∈ plannedRanges t w, r.1 ≤ r.2) ∧
    (t < w →
      (∀ (i : Nat) (h : i < (plannedRanges t w).length), (i : Int) < w - 1 →
          (plannedRanges t w).get ⟨i, h⟩ = (0, -1)) ∧
      (∀ h : w.toNat - 1 < (plannedRanges t w).length,
          (plannedRanges t w).get ⟨w.toNat - 1, h⟩ = (0, t - 1))) := by
  constructor
  · intro htw r hr
    exact (plannedRanges_elem_bounds t w hw htw r hr).2.1
  · intro htw
    have hz : Int.tdiv t w = 0 := by
      rw [tdiv_eq_ediv_of_nonneg t w hw ht]
      exact Int.ediv_eq_zero_of_lt ht htw
    constructor
    · intro i h hlt
      have hnl : (i : Int) ≠ w - 1 := by omega
      rw [get_plannedRanges, hz]
      simp [planRange, hnl]
    · intro h
      have hlast : ((w.toNat - 1 : Nat) : Int) = w - 1 := by omega
      rw [get_plannedRanges, hz]
      simp [planRange, hlast]

/-- Witness for the amended C2 at `totalSize = 5`, `workerCount = 10`. -/
theorem planner_degenerate_amended_witness :
    (plannedRanges 5 10).get ⟨0, by decide⟩ = (0, -1) := by
  have h := (planner_degenerate_amended 5 10 (by norm_num) (by norm_num)).2 (by norm_num)
  exact h.1 0 (by decide) (by norm_num)

/-- C9: `calculateRanges` divides by the worker count with no guard, so it
faults (Go runtime panic, modelled by `none`) exactly when the concurrency is
`0`; for every positive concurrency it terminates and appends exactly
`workerCount` ranges; and the validation in `main` accepts a concurrency of `0`
whenever url and output are non-empty, since it never inspects that flag. -/
theorem calculateRanges_zero_divisor (d : Downloader) :
    (calculateRanges d = none ↔ d.concurrency = 0) ∧
    (0 < d.concurrency →
      calculateRanges d =
        some { d with ranges := d.ranges ++ plannedRanges d.size d.concurrency } ∧
      (plannedRanges d.size d.concurrency).length = d.concurrency.toNat ∧
      (d.concurrency.toNat : Int) = d.concurrency) ∧
    (∀ url output : String, url ≠ "" → output ≠ "" →
      mainArgsAccepted url output 0 = true) := by
  refine ⟨?_, ?_, ?_⟩
  · by_cases h : d.concurrency = 0 <;> simp [calculateRanges, h]
  · intro h
    exact ⟨by simp [calculateRanges, show d.concurrency ≠ 0 by omega],
      length_plannedRanges _ _, by omega⟩
  · intro url output hu ho
    simp [mainArgsAccepted, hu, ho]

/-- Witness for C9: a zero worker count faults, and `main` accepts it. -/
theorem calculateRanges_zero_divisor_witness :
    calculateRanges (NewDownloader "u" "o" 0) = none ∧
    mainArgsAccepted "u" "o" 0 = true := by
  have h := calculateRanges_zero_divisor (NewDownloader "u" "o" 0)
  exact ⟨h.1.mpr rfl, h.2.2 "u" "o" (by decide) (by decide)⟩

/-- C10: `calculateRanges` appends to the existing `ranges` slice without
clearing it, so calling it twice on the same fresh `Downloader` leaves
`2 * workerCount` ranges — the planned sequence followed by a duplicate of
itself — rather than recomputing the plan. -/
theorem calculateRanges_not_idempotent (d : Downloader) (hc : 0 < d.concurrency)
    (h0 : d.ranges = []) :
    ∃ d₁ d₂, calculateRanges d = some d₁ ∧ calculateRanges d₁ = some d₂ ∧
      d₁.ranges = plannedRanges d.size d.concurrency ∧
      d₂.ranges =
        plannedRanges d.size d.concurrency ++ plannedRanges d.size d.concurrency ∧
      d₂.ranges.length = 2 * d.concurrency.toNat := by
  have hne : d.concurrency ≠ 0 := by omega
  refine ⟨{ d with ranges := d.ranges ++ plannedRanges d.size d.concurrency },
    { d with ranges := (d.ranges ++ plannedRanges d.size d.concurrency)
        ++ plannedRanges d.size d.concurrency }, ?_, ?_, ?_, ?_, ?_⟩
  · simp [calculateRanges, hne]
  · simp [calculateRanges, hne]
  · simp [h0]
  · simp [h0]
  · simp [h0, length_plannedRanges]
    omega

/-- Witness for C10 on a fresh `Downloader` with concurrency `4`. -/
theorem calculateRanges_not_idempotent_witness :
    ∃ d₁ d₂, calculateRanges (NewDownloader "u" "o" 4) = some d₁ ∧
      calculateRanges d₁ = some d₂ ∧
      d₁.ranges = plannedRanges 0 4 ∧
      d₂.ranges = plannedRanges 0 4 ++ plannedRanges 0 4 ∧
      d₂.ranges.length = 2 * (4 : Int).toNat := by
  exact calculateRanges_not_idempotent (NewDownloader "u" "o" 4) (by decide) rfl

/-! ### Facts about the merger -/

theorem piecesConcat_nil (fs : FS) : piecesConcat fs [] = [] := rfl

theorem piecesConcat_cons (fs : FS) (i : Nat) (l : List Nat) :
    piecesConcat fs (i :: l) = (fs (itoa i)).getD [] ++ piecesConcat fs l := by
  simp [piecesConcat]

theorem piecesConcat_congr (fs fs' : FS) (l : List Nat)
    (h : ∀ i ∈ l, fs' (itoa i) = fs (itoa i)) :
    piecesConcat fs' l = piecesConcat fs l := by
  unfold piecesConcat
  congr 1
  exact List.map_congr_left (fun i hi => by rw [h i hi])

theorem mergeLoop_all_present (out : String) :
    ∀ (l : List Nat) (fs : FS) (acc : Bytes), fs out = some acc → l.Nodup →
      (∀ i ∈ l, itoa i ≠ out) → (∀ i ∈ l, (fs (itoa i)).isSome) →
      mergeLoop out l fs =
        (.ok (), fun n =>
          if n = out then some (acc ++ piecesConcat fs l)
          else if ∃ i ∈ l, n = itoa i then none
          else fs n) := by
  intro l
  induction l with
  | nil =>
    intro fs acc hacc _ _ _
    have hfun : (fun n =>
        if n = out then some (acc ++ piecesConcat fs ([] : List Nat))
        else if ∃ i ∈ ([] : List Nat), n = itoa i then none
        else fs n) = fs := by
      funext n
      by_cases hn : n = out
      · subst hn; simp [piecesConcat, hacc]
      · simp [hn]
    simp only [mergeLoop]
    rw [hfun]
  | cons i rest ih =>
    intro fs acc hacc hnd hname hsome
    have hne_out : itoa i ≠ out := hname i (by simp)
    obtain ⟨b, hb⟩ := Option.isSome_iff_exists.mp (hsome i (by simp))
    have hi_rest : i ∉ rest := (List.nodup_cons.mp hnd).1
    have hnd' : rest.Nodup := (List.nodup_cons.mp hnd).2
    simp only [mergeLoop, hb, hacc, Option.getD_some]
    set fs2 := fsSet (fsSet fs out (some (acc ++ b))) (itoa i) none with hfs2
    have hout2 : fs2 out = some (acc ++ b) := by
      simp [hfs2, fsSet, Ne.symm hne_out]
    have hrest_eq : ∀ j ∈ rest, fs2 (itoa j) = fs (itoa j) := by
      intro j hj
      have h1 : itoa j ≠ itoa i := itoa_ne (fun hji => hi_rest (hji ▸ hj))
      have h2 : itoa j ≠ out := hname j (List.mem_cons_of_mem _ hj)
      simp [hfs2, fsSet, h1, h2]
    have hsome2 : ∀ j ∈ rest, (fs2 (itoa j)).isSome :=
      fun j hj => (hrest_eq j hj) ▸ hsome j (List.mem_cons_of_mem _ hj)
    rw [ih fs2 (acc ++ b) hout2 hnd'
      (fun j hj => hname j (List.mem_cons_of_mem _ hj)) hsome2]
    refine congrArg (Prod.mk _) ?_
    funext n
    by_cases hn : n = out
    · subst hn
      rw [if_pos rfl, if_pos rfl, piecesConcat_congr fs fs2 rest hrest_eq,
        piecesConcat_cons, hb, Option.getD_some, List.append_assoc]
    · rw [if_neg hn, if_neg hn]
      by_cases hmem : ∃ j ∈ rest, n = itoa j
      · have hmem' : ∃ j ∈ i :: rest, n = itoa j :=
          let ⟨j, hj, hnj⟩ := hmem
          ⟨j, List.mem_cons_of_mem _ hj, hnj⟩
        rw [if_pos hmem, if_pos hmem']
      · by_cases hni : n = itoa i
        · have hmem' : ∃ j ∈ i :: rest, n = itoa j := ⟨i, by simp, hni⟩
          rw [if_neg hmem, if_pos hmem']
          subst hni
          simp [hfs2, fsSet]
        · have hmem' : ¬ ∃ j ∈ i :: rest, n = itoa j := by
            rintro ⟨j, hj, rfl⟩
            rcases List.mem_cons.mp hj with rfl | hj'
            · exact hni rfl
            · exact hmem ⟨j, hj', rfl⟩
          rw [if_neg hmem, if_neg hmem']
          simp [hfs2, fsSet, hni, hn]

theorem mergeLoop_first_missing (out : String) :
    ∀ (l₁ : List Nat) (k : Nat) (l₂ : List Nat) (fs : FS) (acc : Bytes),
      fs out = some acc → (l₁ ++ k :: l₂).Nodup →
      (∀ i ∈ l₁ ++ k :: l₂, itoa i ≠ out) →
      (∀ i ∈ l₁, (fs (itoa i)).isSome) →
      fs (itoa k) = none →
      mergeLoop out (l₁ ++ k :: l₂) fs =
        (.error (.openErr k), fun n =>
          if n = out then some (acc ++ piecesConcat fs l₁)
          else if ∃ i ∈ l₁, n = itoa i then none
          else fs n) := by
  intro l₁
  induction l₁ with
  | nil =>
    intro k l₂ fs acc hacc _ _ _ hmiss
    have hfun : (fun n =>
        if n = out then some (acc ++ piecesConcat fs ([] : List Nat))
        else if ∃ i ∈ ([] : List Nat), n = itoa i then none
        else fs n) = fs := by
      funext n
      by_cases hn : n = out
      · subst hn; simp [piecesConcat, hacc]
      · simp [hn]
    simp only [List.nil_append, mergeLoop, hmiss]
    rw [hfun]
  | cons i rest ih =>
    intro k l₂ fs acc hacc hnd hname hsome hmiss
    have hmem_of_rest : ∀ j ∈ rest, j ∈ (i :: rest) ++ k :: l₂ :=
      fun j hj => List.mem_append_left _ (List.mem_cons_of_mem _ hj)
    have hmem_k : k ∈ (i :: rest) ++ k :: l₂ :=
      List.mem_append_right _ (by simp)
    have hne_out : itoa i ≠ out := hname i (by simp)
    obtain ⟨b, hb⟩ := Option.isSome_iff_exists.mp (hsome i (by simp))
    have hnd0 := List.nodup_cons.mp (by simpa only [List.cons_append] using hnd)
    have hi_rest : i ∉ rest ++ k :: l₂ := hnd0.1
    have hnd' : (rest ++ k :: l₂).Nodup := hnd0.2
    have hik : k ≠ i := by
      intro h
      exact hi_rest (h ▸ (by simp : k ∈ rest ++ k :: l₂))
    simp only [List.cons_append, mergeLoop, List.append_eq, hb, hacc, Option.getD_some]
    set fs2 := fsSet (fsSet fs out (some (acc ++ b))) (itoa i) none with hfs2
    have hout2 : fs2 out = some (acc ++ b) := by
      simp [hfs2, fsSet, Ne.symm hne_out]
    have heq : ∀ m : Nat, m ≠ i → itoa m ≠ out → fs2 (itoa m) = fs (itoa m) := by
      intro m hmi hmo
      simp [hfs2, fsSet, itoa_ne hmi, hmo]
    have hrest_eq : ∀ j ∈ rest, fs2 (itoa j) = fs (itoa j) := by
      intro j hj
      have hji : j ≠ i := by
        intro h
        exact hi_rest (h ▸ List.mem_append_left _ hj)
      exact heq j hji (hname j (hmem_of_rest j hj))
    have hrest_some : ∀ j ∈ rest, (fs2 (itoa j)).isSome := by
      intro j hj
      rw [hrest_eq j hj]
      exact hsome j (List.mem_cons_of_mem _ hj)
    have hmiss2 : fs2 (itoa k) = none := by
      rw [heq k hik (hname k hmem_k)]
      exact hmiss
    have hname' : ∀ j ∈ rest ++ k :: l₂, itoa j ≠ out := by
      intro j hj
      exact hname j (by simp only [List.cons_append]; exact List.mem_cons_of_mem _ hj)
    rw [ih k l₂ fs2 (acc ++ b) hout2 hnd' hname' hrest_some hmiss2]
    refine congrArg (Prod.mk _) ?_
    funext n
    by_cases hn : n = out
    · subst hn
      rw [if_pos rfl, if_pos rfl, piecesConcat_congr fs fs2 rest hrest_eq,
        piecesConcat_cons, hb, Option.getD_some, List.append_assoc]
    · rw [if_neg hn, if_neg hn]
      by_cases hmem : ∃ j ∈ rest, n = itoa j
      · have hmem' : ∃ j ∈ i :: rest, n = itoa j :=
          let ⟨j, hj, hnj⟩ := hmem
          ⟨j, List.mem_cons_of_mem _ hj, hnj⟩
        rw [if_pos hmem, if_pos hmem']
      · by_cases hni : n = itoa i
        · have hmem' : ∃ j ∈ i :: rest, n = itoa j := ⟨i, by simp, hni⟩
          rw [if_neg hmem, if_pos hmem']
          subst hni
          simp [hfs2, fsSet]
        · have hmem' : ¬ ∃ j ∈ i :: rest, n = itoa j := by
            rintro ⟨j, hj, rfl⟩
            rcases List.mem_cons.mp hj with rfl | hj'
            · exact hni rfl
            · exact hmem ⟨j, hj', rfl⟩
          rw [if_neg hmem, if_neg hmem']
          simp [hfs2, fsSet, hni, hn]

theorem mergeFiles_ok_core (c : Int) (out : String) (fs : FS)
    (hout : ∀ i : Nat, out ≠ itoa i)
    (hall : ∀ i < c.toNat, (fs (itoa i)).isSome) :
    mergeFiles c out fs =
      (.ok (), fun n =>
        if n = out then some (piecesConcat fs (List.range c.toNat))
        else if ∃ i ∈ List.range c.toNat, n = itoa i then none
        else fs n) := by
  unfold mergeFiles
  set fs0 := fsSet fs out (some []) with hfs0
  have hacc : fs0 out = some [] := by simp [hfs0, fsSet]
  have hfs0_eq : ∀ i : Nat, fs0 (itoa i) = fs (itoa i) := by
    intro i
    simp [hfs0, fsSet, Ne.symm (hout i)]
  rw [mergeLoop_all_present out (List.range c.toNat) fs0 [] hacc (List.nodup_range _)
    (fun i _ => Ne.symm (hout i))
    (fun i hi => by rw [hfs0_eq i]; exact hall i (List.mem_range.mp hi))]
  refine congrArg (Prod.mk _) ?_
  funext n
  by_cases hn : n = out
  · subst hn
    rw [if_pos rfl, if_pos rfl,
      piecesConcat_congr fs fs0 _ (fun i _ => hfs0_eq i), List.nil_append]
  · rw [if_neg hn, if_neg hn]
    by_cases hmem : ∃ i ∈ List.range c.toNat, n = itoa i
    · rw [if_pos hmem, if_pos hmem]
    · rw [if_neg hmem, if_neg hmem]
      simp [hfs0, fsSet, hn]

theorem mergeFiles_missing_core (c : Int) (out : String) (fs : FS) (k : Nat)
    (hout : ∀ i : Nat, out ≠ itoa i) (hk : k < c.toNat)
    (hpre : ∀ j < k, (fs (itoa j)).isSome)
    (hmiss : fs (itoa k) = none) :
    mergeFiles c out fs =
      (.error (.openErr k), fun n =>
        if n = out then some (piecesConcat fs (List.range k))
        else if ∃ i ∈ List.range k, n = itoa i then none
        else fs n) := by
  have haux : ∀ m : Nat, List.range (k + 1 + m)
      = List.range k ++ k :: (List.range m).map (fun j => k + 1 + j) := by
    intro m
    rw [List.range_add, List.range_succ]
    simp [List.append_assoc]
  have hsplit : List.range c.toNat
      = List.range k ++ k :: (List.range (c.toNat - k - 1)).map (fun j => k + 1 + j) := by
    have h1 : c.toNat = k + 1 + (c.toNat - k - 1) := by omega
    conv_lhs => rw [h1]
    exact haux _
  unfold mergeFiles
  set fs0 := fsSet fs out (some []) with hfs0
  have hacc : fs0 out = some [] := by simp [hfs0, fsSet]
  have hfs0_eq : ∀ i : Nat, fs0 (itoa i) = fs (itoa i) := by
    intro i
    simp [hfs0, fsSet, Ne.symm (hout i)]
  rw [hsplit, mergeLoop_first_missing out (List.range k) k _ fs0 [] hacc
    (hsplit ▸ List.nodup_range c.toNat)
    (fun i _ => Ne.symm (hout i))
    (fun j hj => by rw [hfs0_eq j]; exact hpre j (List.mem_range.mp hj))
    (by rw [hfs0_eq k]; exact hmiss)]
  refine congrArg (Prod.mk _) ?_
  funext n
  by_cases hn : n = out
  · subst hn
    rw [if_pos rfl, if_pos rfl,
      piecesConcat_congr fs fs0 _ (fun i _ => hfs0_eq i), List.nil_append]
  · rw [if_neg hn, if_neg hn]
    by_cases hmem : ∃ i ∈ List.range k, n = itoa i
    · rw [if_pos hmem, if_pos hmem]
    · rw [if_neg hmem, if_neg hmem]
      simp [hfs0, fsSet, hn]

/-- Every character of `itoa n` is a decimal digit character. -/
theorem itoa_data_digit (n : Nat) :
    ∀ ch ∈ (itoa n).data, ∃ d, d < 10 ∧ ch = Nat.digitChar d := by
  intro ch hch
  simp only [itoa] at hch
  rw [List.mem_reverse] at hch
  obtain ⟨d, hd, rfl⟩ := List.mem_map.mp hch
  exact ⟨d, decDigits_lt10 n d hd, rfl⟩

/-- The name `"out"` never collides with a decimal scratch name. -/
theorem out_ne_itoa : ∀ i : Nat, ("out" : String) ≠ itoa i := by
  intro i h
  have hmem : 'o' ∈ (itoa i).data := by
    rw [← h]
    decide
  obtain ⟨d, hd, hchar⟩ := itoa_data_digit i 'o' hmem
  have hno : ∀ d < 10, Nat.digitChar d ≠ 'o' := by decide
  exact hno d hd hchar.symm

/-- C6: for a worker count `N ≥ 1` (and a destination name distinct from the
decimal scratch names), the merger truncates the destination and processes
indices `0 .. N-1` in ascending order, appending the full
contents to the destination and deleting it; when all pieces are present it
succeeds with the destination holding their concatenation; when piece `k` is
the first that cannot be opened it returns that open error immediately,
leaves indices `≥ k` untouched, and the destination holds exactly the
concatenation of pieces `0 .. k-1`. -/
theorem mergeFiles_spec (c : Int) (out : String) (fs : FS)
    (hc : 1 ≤ c) (hout : ∀ i : Nat, out ≠ itoa i) :
    ((∀ i < c.toNat, (fs (itoa i)).isSome) →
      (mergeFiles c out fs).1 = .ok () ∧
      (mergeFiles c out fs).2 out = some (piecesConcat fs (List.range c.toNat)) ∧
      (∀ i < c.toNat, (mergeFiles c out fs).2 (itoa i) = none) ∧
      (∀ n, n ≠ out → (∀ i < c.toNat, n ≠ itoa i) →
        (mergeFiles c out fs).2 n = fs n)) ∧
    (∀ k, k < c.toNat → (∀ j < k, (fs (itoa j)).isSome) → fs (itoa k) = none →
      (mergeFiles c out fs).1 = .error (.openErr k) ∧
      (mergeFiles c out fs).2 out = some (piecesConcat fs (List.range k)) ∧
      (∀ j < k, (mergeFiles c out fs).2 (itoa j) = none) ∧
      (∀ j, k ≤ j → (mergeFiles c out fs).2 (itoa j) = fs (itoa j))) := by
  constructor
  · intro hall
    rw [mergeFiles_ok_core c out fs hout hall]
    refine ⟨rfl, by simp, ?_, ?_⟩
    · intro i hi
      have hmem : ∃ j ∈ List.range c.toNat, itoa i = itoa j :=
        ⟨i, List.mem_range.mpr hi, rfl⟩
      simp [Ne.symm (hout i), hmem]
      intro h
      exact absurd rfl (h i (by omega))
    · intro n hn hni
      have hmem : ¬ ∃ j ∈ List.range c.toNat, n = itoa j := by
        rintro ⟨j, hj, rfl⟩
        exact hni j (List.mem_range.mp hj) rfl
      simp [hn, hmem]
      intro x hx hxn
      exact absurd hxn (hni x (by omega))
  · intro k hk hpre hmiss
    rw [mergeFiles_missing_core c out fs k hout hk hpre hmiss]
    refine ⟨rfl, by simp, ?_, ?_⟩
    · intro j hj
      have hmem : ∃ i ∈ List.range k, itoa j = itoa i :=
        ⟨j, List.mem_range.mpr hj, rfl⟩
      simp [Ne.symm (hout j), hmem]
      intro h
      exact absurd rfl (h j hj)
    · intro j hjk
      have hmem : ¬ ∃ i ∈ List.range k, itoa j = itoa i := by
        rintro ⟨i, hi, hij⟩
        have h1 := itoa_inj hij
        have h2 := List.mem_range.mp hi
        omega
      simp [Ne.symm (hout j), hmem]
      intro x hx hxj
      exact absurd (itoa_inj hxj) (by omega)

/-- Witness for C6 at `N = 2` with both pieces present. -/
theorem mergeFiles_spec_witness :
    (mergeFiles 2 "out"
        (fun n => if n = itoa 0 then some [1] else if n = itoa 1 then some [2] else none)).1
      = .ok () ∧
    (mergeFiles 2 "out"
        (fun n => if n = itoa 0 then some [1] else if n = itoa 1 then some [2] else none)).2
        "out"
      = some (piecesConcat
          (fun n => if n = itoa 0 then some [1] else if n = itoa 1 then some [2] else none)
          (List.range (2 : Int).toNat)) := by
  have h := (mergeFiles_spec 2 "out"
      (fun n => if n = itoa 0 then some [1] else if n = itoa 1 then some [2] else none)
      (by norm_num) out_ne_itoa).1 (by decide)
  exact ⟨h.1, h.2.1⟩

/-- C7: when the merge fails partway (the piece at index `k` is missing), the
destination file is not removed or rolled back: it has been created/truncated
and still holds exactly the bytes appended before the failure, i.e. the
concatenation of pieces `0 .. k-1`. -/
theorem mergeFiles_no_rollback (c : Int) (out : String) (fs : FS) (k : Nat)
    (hout : ∀ i : Nat, out ≠ itoa i) (hk : k < c.toNat)
    (hpre : ∀ j < k, (fs (itoa j)).isSome) (hmiss : fs (itoa k) = none) :
    (mergeFiles c out fs).1 = .error (.openErr k) ∧
    ((mergeFiles c out fs).2 out).isSome ∧
    (mergeFiles c out fs).2 out = some (piecesConcat fs (List.range k)) := by
  rw [mergeFiles_missing_core c out fs k hout hk hpre hmiss]
  exact ⟨rfl, by simp, by simp⟩

/-- Witness for C7 at `N = 2` with piece `1` missing. -/
theorem mergeFiles_no_rollback_witness :
    (mergeFiles 2 "out" (fun n => if n = itoa 0 then some [7] else none)).1
      = .error (.openErr 1) ∧
    ((mergeFiles 2 "out" (fun n => if n = itoa 0 then some [7] else none)).2 "out").isSome ∧
    (mergeFiles 2 "out" (fun n => if n = itoa 0 then some [7] else none)).2 "out"
      = some (piecesConcat (fun n => if n = itoa 0 then some [7] else none)
          (List.range 1)) :=
  mergeFiles_no_rollback 2 "out" _ 1 out_ne_itoa (by decide) (by decide) (by decide)

/-- C3 counterexample: a HEAD response with success status `200`,
`Accept-Ranges: bytes`, but NO declared total content length
(`ContentLength = -1`, the Go marker for an undeclared length) makes the probe
SUCCEED, recording `-1` as the job size — refuting the claim that the probe
succeeds only if a total content length is declared and fails otherwise. -/
theorem checkSupportRange_counterexample :
    checkSupportRange (NewDownloader "u" "o" 4)
        (.ok { statusCode := 200, acceptRanges := "bytes", contentLength := -1 })
      = .ok { NewDownloader "u" "o" 4 with size := -1 } ∧
    ({ NewDownloader "u" "o" 4 with size := -1 } : Downloader).size < 0 :=
  ⟨rfl, by norm_num⟩

/-- C3 amended: the probe succeeds iff the response arrives with status
`200 OK` and an `Accept-Ranges` header equal to `bytes`; success records
`resp.ContentLength` as the job size even when no length is declared (`-1`);
a transport error is returned as is and any other response yields the
range-unsupported error (both fall under the `RangeUnsupportedError`
taxonomy of the spec). -/
theorem checkSupportRange_amended (d : Downloader) (r : HeadResponse)
    (e : TransportError) :
    checkSupportRange d (.error e) = .error (.transport e) ∧
    (r.statusCode = 200 ∧ r.acceptRanges = "bytes" →
      checkSupportRange d (.ok r) = .ok { d with size := r.contentLength }) ∧
    (¬(r.statusCode = 200 ∧ r.acceptRanges = "bytes") →
      checkSupportRange d (.ok r) = .error .unsupported) ∧
    (∀ d', checkSupportRange d (.ok r) = .ok d' →
      r.statusCode = 200 ∧ r.acceptRanges = "bytes" ∧
      d' = { d with size := r.contentLength }) := by
  refine ⟨rfl, ?_, ?_, ?_⟩
  · intro h
    simp [checkSupportRange, h]
  · intro h
    simp [checkSupportRange, h]
  · intro d' h
    by_cases hc : r.statusCode = 200 ∧ r.acceptRanges = "bytes"
    · simp [checkSupportRange, hc] at h
      exact ⟨hc.1, hc.2, h.symm⟩
    · simp [checkSupportRange, hc] at h

/-- Witness for the amended C3 on a fully well-formed response. -/
theorem checkSupportRange_amended_witness :
    checkSupportRange (NewDownloader "u" "o" 4)
        (.ok { statusCode := 200, acceptRanges := "bytes", contentLength := 100 })
      = .ok { NewDownloader "u" "o" 4 with size := 100 } :=
  (checkSupportRange_amended (NewDownloader "u" "o" 4)
      { statusCode := 200, acceptRanges := "bytes", contentLength := 100 }
      { msg := "" }).2.1 ⟨rfl, rfl⟩

/-- C4: if the probe fails, `Download` fails immediately with that probe
error and the filesystem is returned untouched — no scratch file is created,
the destination is never created/truncated (the merger is not called), and
the planner is not invoked: the statement holds for every concurrency,
including `0`, which would panic inside `calculateRanges` were the planner
reached. -/
theorem download_probe_failure (d : Downloader) (env : Env) (fs : FS)
    (e : ProbeError) (h : checkSupportRange d env.headResp = .error e) :
    Download d env fs = some (.error (.probe e), fs) := by
  simp [Download, h]

/-- Witness for C4: a transport failure with concurrency `0`. -/
theorem download_probe_failure_witness :
    Download (NewDownloader "u" "o" 0)
        { headResp := .error { msg := "boom" }, fetch := fun _ _ => .err none }
        (fun _ => none)
      = some (.error (.probe (.transport { msg := "boom" })), fun _ => none) :=
  download_probe_failure _ _ _ _ rfl

/-! ### Facts about the fetch phase -/

theorem runFetchesFrom_cons (env : Env) (i0 : Nat) (r : Int × Int)
    (rest : List (Int × Int)) (fs : FS) :
    runFetchesFrom env i0 (r :: rest) fs =
      runFetchesFrom env (i0 + 1) rest
        (fsSet fs (itoa i0) (chunkFile (env.fetch i0 r) (fs (itoa i0)))) := by
  rcases hf : env.fetch i0 r with bs | w
  · simp [runFetchesFrom, hf, chunkFile]
  · cases w with
    | none =>
      have hid : fsSet fs (itoa i0) (fs (itoa i0)) = fs := by
        funext n
        by_cases hn : n = itoa i0 <;> simp [fsSet, hn]
      simp only [runFetchesFrom, hf, chunkFile, hid]
    | some wb => simp [runFetchesFrom, hf, chunkFile]

theorem runFetchesFrom_notin (env : Env) :
    ∀ (l : List (Int × Int)) (i0 : Nat) (fs : FS) (n : String),
      (∀ j < l.length, n ≠ itoa (i0 + j)) →
      runFetchesFrom env i0 l fs n = fs n := by
  intro l
  induction l with
  | nil =>
    intro i0 fs n _
    rfl
  | cons r rest ih =>
    intro i0 fs n h
    have h0 : n ≠ itoa i0 := by
      have h' := h 0 (by simp)
      simpa using h'
    have hrest : ∀ j < rest.length, n ≠ itoa (i0 + 1 + j) := by
      intro j hj
      have h' := h (j + 1) (by simp only [List.length_cons]; omega)
      rwa [show i0 + (j + 1) = i0 + 1 + j from by omega] at h'
    rw [runFetchesFrom_cons, ih (i0 + 1) _ n hrest]
    simp [fsSet, h0]

theorem runFetchesFrom_get (env : Env) :
    ∀ (l : List (Int × Int)) (i0 : Nat) (fs : FS) (j : Nat) (hj : j < l.length),
      runFetchesFrom env i0 l fs (itoa (i0 + j)) =
        chunkFile (env.fetch (i0 + j) (l.get ⟨j, hj⟩)) (fs (itoa (i0 + j))) := by
  intro l
  induction l with
  | nil =>
    intro i0 fs j hj
    simp at hj
  | cons r rest ih =>
    intro i0 fs j hj
    rw [runFetchesFrom_cons]
    cases j with
    | zero =>
      have hnotin : ∀ j' < rest.length, itoa (i0 + 0) ≠ itoa (i0 + 1 + j') :=
        fun j' _ => itoa_ne (by omega)
      rw [runFetchesFrom_notin env rest (i0 + 1) _ _ hnotin]
      simp [fsSet]
    | succ j' =>
      have hj'' : j' < rest.length := by simpa using hj
      have harith : i0 + (j' + 1) = i0 + 1 + j' := by omega
      rw [harith, ih (i0 + 1) _ j' hj'']
      have hne : itoa (i0 + 1 + j') ≠ itoa i0 := itoa_ne (by omega)
      simp [fsSet, hne]

/-- C5: once the probe succeeds, the result of `Download` is exactly the result of
the unconditional merge over the post-fetch filesystem, whatever the
per-chunk outcomes in `env.fetch` (failures included — they are only
logged): a chunk error is never returned from `Download` and never prevents
the merge from being attempted after all fetch tasks complete; the only
errors returnable to the caller are a probe error or a merge error. -/
theorem download_error_propagation (d : Downloader) (env : Env) (fs : FS)
    (r : HeadResponse) (hresp : env.headResp = .ok r)
    (hok : r.statusCode = 200 ∧ r.acceptRanges = "bytes")
    (hc : d.concurrency ≠ 0) :
    Download d env fs =
      some
        (match mergeFiles d.concurrency d.output
            (runFetches env
              (d.ranges ++ plannedRanges r.contentLength d.concurrency) fs) with
        | (.ok _, fs2) => (.ok (), fs2)
        | (.error e, fs2) => (.error (.merge e), fs2)) ∧
    (∀ res fs', Download d env fs = some (res, fs') →
      ∀ e, res = .error e → (∃ pe, e = .probe pe) ∨ ∃ me, e = .merge me) := by
  constructor
  · have hstep : checkSupportRange d env.headResp
        = .ok { d with size := r.contentLength } := by
      simp [checkSupportRange, hresp, hok]
    rcases hm : mergeFiles d.concurrency d.output
        (runFetches env (d.ranges ++ plannedRanges r.contentLength d.concurrency) fs)
      with ⟨res, fs2⟩
    cases res <;> simp [Download, hstep, calculateRanges, hc, hm]
  · intro res fs' _hdl e he
    cases e with
    | probe pe => exact Or.inl ⟨pe, rfl⟩
    | merge me => exact Or.inr ⟨me, rfl⟩

/-- Witness for C5 on a concrete two-range run. -/
theorem download_error_propagation_witness :
    Download (NewDownloader "u" "out" 2)
        { headResp := .ok { statusCode := 200, acceptRanges := "bytes", contentLength := 4 },
          fetch := fun i _ => .ok [i] }
        (fun _ => none)
      = some
          (match mergeFiles 2 "out"
              (runFetches
                { headResp := .ok { statusCode := 200, acceptRanges := "bytes", contentLength := 4 }, fetch := fun i _ => .ok [i] }
                ([] ++ plannedRanges 4 2) (fun _ => none)) with
          | (.ok _, fs2) => (.ok (), fs2)
          | (.error e, fs2) => (.error (.merge e), fs2)) :=
  (download_error_propagation (NewDownloader "u" "out" 2)
      { headResp := .ok { statusCode := 200, acceptRanges := "bytes", contentLength := 4 },
        fetch := fun i _ => .ok [i] }
      (fun _ => none)
      { statusCode := 200, acceptRanges := "bytes", contentLength := 4 }
      rfl ⟨rfl, rfl⟩ (by decide)).1

/-- C8: scratch naming is consistent across components: the fetch task for
range index `i` writes to the file named by the decimal rendering of `i`, and
the merger reads and removes exactly those names, so on a run where the probe
succeeds and every fetch succeeds, the merge finds every piece, removes all
of them, and the destination ends up holding the fetched bytes concatenated
in index order. -/
theorem download_scratch_naming (d : Downloader) (env : Env) (fs : FS)
    (r : HeadResponse) (hresp : env.headResp = .ok r)
    (hok : r.statusCode = 200 ∧ r.acceptRanges = "bytes")
    (hc : 1 ≤ d.concurrency) (hranges : d.ranges = [])
    (hout : ∀ i : Nat, d.output ≠ itoa i)
    (hfetch : ∀ i rg, ∃ bs, env.fetch i rg = .ok bs) :
    ∃ fs', Download d env fs = some (.ok (), fs') ∧
      (∀ i < d.concurrency.toNat, fs' (itoa i) = none) ∧
      fs' d.output =
        some ((List.range d.concurrency.toNat).map
          (fun i => fetchedBytes env
            (plannedRanges r.contentLength d.concurrency) i)).flatten := by
  have hne : d.concurrency ≠ 0 := by omega
  have hstep : checkSupportRange d env.headResp
      = .ok { d with size := r.contentLength } := by
    simp [checkSupportRange, hresp, hok]
  have hkey : ∀ i, i < d.concurrency.toNat →
      runFetches env (plannedRanges r.contentLength d.concurrency) fs (itoa i)
        = some (fetchedBytes env (plannedRanges r.contentLength d.concurrency) i) := by
    intro i hi
    have hi' : i < (plannedRanges r.contentLength d.concurrency).length := by
      rw [length_plannedRanges]
      exact hi
    have h1 := runFetchesFrom_get env
      (plannedRanges r.contentLength d.concurrency) 0 fs i hi'
    rw [Nat.zero_add] at h1
    obtain ⟨bs, hbs⟩ :=
      hfetch i ((plannedRanges r.contentLength d.concurrency).get ⟨i, hi'⟩)
    have hgetD : (plannedRanges r.contentLength d.concurrency).getD i (0, 0)
        = (plannedRanges r.contentLength d.concurrency).get ⟨i, hi'⟩ := by
      rw [List.get_eq_getElem]
      exact List.getD_eq_getElem _ _ hi'
    show runFetchesFrom env 0 _ fs (itoa i) = _
    rw [h1, hbs]
    simp only [chunkFile]
    unfold fetchedBytes
    rw [hgetD, hbs]
  have hisSome : ∀ i < d.concurrency.toNat,
      (runFetches env (plannedRanges r.contentLength d.concurrency) fs (itoa i)).isSome := by
    intro i hi
    rw [hkey i hi]
    rfl
  have hmerge := mergeFiles_ok_core d.concurrency d.output
    (runFetches env (plannedRanges r.contentLength d.concurrency) fs) hout hisSome
  have hDL : Download d env fs =
      (match mergeFiles d.concurrency d.output
          (runFetches env (plannedRanges r.contentLength d.concurrency) fs) with
      | (.ok _, fs2) => some ((.ok () : Except DownloadError Unit), fs2)
      | (.error e, fs2) => some (.error (.merge e), fs2)) := by
    simp [Download, hstep, calculateRanges, hne, hranges]
  rw [hmerge] at hDL
  refine ⟨_, hDL, ?_, ?_⟩
  · intro i hi
    have hmem : ∃ j ∈ List.range d.concurrency.toNat, itoa i = itoa j :=
      ⟨i, List.mem_range.mpr hi, rfl⟩
    simp [Ne.symm (hout i), hmem]
    intro h
    exact absurd rfl (h i (by omega))
  · have hcongr : ∀ i ∈ List.range d.concurrency.toNat,
        (runFetches env (plannedRanges r.contentLength d.concurrency) fs (itoa i)).getD []
          = fetchedBytes env (plannedRanges r.contentLength d.concurrency) i := by
      intro i hi
      rw [hkey i (List.mem_range.mp hi)]
      rfl
    simp only [eq_self_iff_true, if_true]
    unfold piecesConcat
    exact congrArg (fun l => some (List.flatten l)) (List.map_congr_left hcongr)

/-- Witness for C8 on a concrete two-range run where every fetch succeeds. -/
theorem download_scratch_naming_witness :
    ∃ fs', Download (NewDownloader "u" "out" 2)
        { headResp := .ok { statusCode := 200, acceptRanges := "bytes", contentLength := 4 }, fetch := fun i _ => .ok [i] }
        (fun _ => none)
      = some (.ok (), fs') ∧
      (∀ i < (2 : Int).toNat, fs' (itoa i) = none) ∧
      fs' "out" = some ((List.range (2 : Int).toNat).map
        (fun i => fetchedBytes
          { headResp := .ok { statusCode := 200, acceptRanges := "bytes", contentLength := 4 }, fetch := fun i _ => .ok [i] }
          (plannedRanges 4 2) i)).flatten :=
  download_scratch_naming (NewDownloader "u" "out" 2)
    { headResp := .ok { statusCode := 200, acceptRanges := "bytes", contentLength := 4 }, fetch := fun i _ => .ok [i] }
    (fun _ => none)
    { statusCode := 200, acceptRanges := "bytes", contentLength := 4 }
    rfl ⟨rfl, rfl⟩ (by decide) rfl out_ne_itoa (fun i rg => ⟨[i], rfl⟩)
